import Mathlib

/-!
Shallow embedding of the keg storage core (write-ahead log and memtable),
translated from `src/lib/wal.rs`, `src/memtable.rs` and `src/lib.rs`.

Byte sequences (`Vec<u8>`, `&[u8]`) are `List Nat`; machine integers are `Nat`
with explicit truncation modulo `2 ^ 64` (usize) or `2 ^ 128` (u128) where the
code's fixed-width encoding truncates.  Fallible reads return `Option`.
-/

/-- Little-endian fixed-width byte encoding, as `to_le_bytes` produces for a
`w`-byte machine integer (the integer is reduced modulo `2 ^ (8 * w)`, which is
invisible in Rust because the machine type already bounds the value). -/
def leBytes : Nat → Nat → List Nat
  | 0, _ => []
  | w + 1, n => n % 256 :: leBytes w (n / 256)

/-- Little-endian byte decoding, as `usize::from_le_bytes` / `u128::from_le_bytes`. -/
def fromLe : List Nat → Nat
  | [] => 0
  | b :: rest => b + 256 * fromLe rest

@[simp] theorem leBytes_length (w n : Nat) : (leBytes w n).length = w := by
  induction w generalizing n with
  | zero => rfl
  | succ w ih => simp [leBytes, ih]

theorem fromLe_leBytes (w n : Nat) : fromLe (leBytes w n) = n % 256 ^ w := by
  induction w generalizing n with
  | zero => simp [leBytes, fromLe, Nat.mod_one]
  | succ w ih =>
      simp only [leBytes, fromLe, ih]
      rw [pow_succ, mul_comm (256 ^ w) 256, Nat.mod_mul]

/-- `BufWriter::write_all`: append the bytes to the buffered file contents. -/
def writeAll (buf bytes : List Nat) : List Nat := buf ++ bytes

/-- `b as u8` for a `bool`. -/
def boolByte (b : Bool) : Nat := if b then 1 else 0

namespace WAL

/-- `WAL::set` (src/lib/wal.rs:70-79): buffer contents after appending one set
record; one `writeAll` per `write_all` call of the source, in source order. -/
def set (buf key value : List Nat) (timestamp : Nat) : List Nat :=
  let buf := writeAll buf (leBytes 8 key.length)
  let buf := writeAll buf [boolByte false]
  let buf := writeAll buf (leBytes 8 value.length)
  let buf := writeAll buf key
  let buf := writeAll buf value
  writeAll buf (leBytes 16 timestamp)

/-- `WAL::delete` (src/lib/wal.rs:81-88): buffer contents after appending one
tombstone record. -/
def delete (buf key : List Nat) (timestamp : Nat) : List Nat :=
  let buf := writeAll buf (leBytes 8 key.length)
  let buf := writeAll buf [boolByte true]
  let buf := writeAll buf key
  writeAll buf (leBytes 16 timestamp)

end WAL

/-- `WALEntry` (src/lib/wal.rs:142-148). -/
structure WALEntry where
  key : List Nat
  value : Option (List Nat)
  timestamp : Nat
  deleted : Bool
deriving Repr, DecidableEq

/-- `Read::read_exact` on an in-memory stream: `some (read, remainder)` when
`n` bytes remain, `none` (the `Err` case) otherwise. -/
def readExact (n : Nat) (bytes : List Nat) : Option (List Nat × List Nat) :=
  if n ≤ bytes.length then some (bytes.take n, bytes.drop n) else none

namespace WALIterator

/-- `WALIterator::next` (src/lib/wal.rs:180-230), with the unread remainder of
the stream made explicit.  Every failing `read_exact` early-returns `None`,
which `Option.bind` models; `deleted` is `bool_buffer[0] != 0`, and the key
length read first governs both branches as in the source. -/
def next (bytes : List Nat) : Option (WALEntry × List Nat) :=
  (readExact 8 bytes).bind fun p1 =>
  (readExact 1 p1.2).bind fun p2 =>
  if p2.1.headD 0 != 0 then
    (readExact (fromLe p1.1) p2.2).bind fun p3 =>
    (readExact 16 p3.2).bind fun p4 =>
    some (⟨p3.1, none, fromLe p4.1, true⟩, p4.2)
  else
    (readExact 8 p2.2).bind fun p3 =>
    (readExact (fromLe p1.1) p3.2).bind fun p4 =>
    (readExact (fromLe p3.1) p4.2).bind fun p5 =>
    (readExact 16 p5.2).bind fun p6 =>
    some (⟨p4.1, some p5.1, fromLe p6.1, false⟩, p6.2)

end WALIterator

/-- Fuel-indexed unrolling of the WAL iterator loop. -/
def walIterateFuel : Nat → List Nat → List WALEntry
  | 0, _ => []
  | fuel + 1, bytes =>
    match WALIterator.next bytes with
    | none => []
    | some (e, rest) => e :: walIterateFuel fuel rest

/-- Collecting the whole iterator (`for entry in wal.into_iter()`): the fuel
`bytes.length + 1` always suffices because each record consumes at least the
8-byte key length header. -/
def walIterate (bytes : List Nat) : List WALEntry := walIterateFuel (bytes.length + 1) bytes

theorem readExact_eq_some {n : Nat} {b l r : List Nat}
    (h : readExact n b = some (l, r)) :
    l = b.take n ∧ r = b.drop n ∧ n ≤ b.length := by
  unfold readExact at h
  split at h
  · simp only [Option.some.injEq, Prod.mk.injEq] at h
    exact ⟨h.1.symm, h.2.symm, by assumption⟩
  · exact absurd h (by simp)

theorem readExact_append {n : Nat} (l rest : List Nat) (h : l.length = n) :
    readExact n (l ++ rest) = some (l, rest) := by
  subst h
  simp [readExact, List.take_left, List.drop_left]

theorem readExact_rest_length {n : Nat} {b l r : List Nat}
    (h : readExact n b = some (l, r)) : r.length + n = b.length := by
  obtain ⟨-, hr, hn⟩ := readExact_eq_some h
  subst hr
  simp [List.length_drop]
  omega

/-- A successfully decoded record consumes at least one byte of the stream. -/
theorem next_rest_length {b : List Nat} {e : WALEntry} {r : List Nat}
    (h : WALIterator.next b = some (e, r)) : r.length < b.length := by
  unfold WALIterator.next at h
  simp only [Option.bind_eq_some] at h
  obtain ⟨⟨l1, r1⟩, h1, h⟩ := h
  obtain ⟨⟨l2, r2⟩, h2, h⟩ := h
  dsimp only at h2 h
  have e1 := readExact_rest_length h1
  have e2 := readExact_rest_length h2
  split at h
  · simp only [Option.bind_eq_some] at h
    obtain ⟨⟨l3, r3⟩, h3, h⟩ := h
    obtain ⟨⟨l4, r4⟩, h4, h⟩ := h
    dsimp only at h4 h
    simp only [Option.some.injEq, Prod.mk.injEq] at h
    obtain ⟨-, rfl⟩ := h
    have e3 := readExact_rest_length h3
    have e4 := readExact_rest_length h4
    omega
  · simp only [Option.bind_eq_some] at h
    obtain ⟨⟨l3, r3⟩, h3, h⟩ := h
    obtain ⟨⟨l4, r4⟩, h4, h⟩ := h
    obtain ⟨⟨l5, r5⟩, h5, h⟩ := h
    obtain ⟨⟨l6, r6⟩, h6, h⟩ := h
    dsimp only at h4 h5 h6 h
    simp only [Option.some.injEq, Prod.mk.injEq] at h
    obtain ⟨-, rfl⟩ := h
    have e3 := readExact_rest_length h3
    have e4 := readExact_rest_length h4
    have e5 := readExact_rest_length h5
    have e6 := readExact_rest_length h6
    omega

theorem walIterateFuel_congr :
    ∀ (f1 f2 : Nat) (b : List Nat), b.length < f1 → b.length < f2 →
      walIterateFuel f1 b = walIterateFuel f2 b := by
  intro f1
  induction f1 with
  | zero => intro f2 b h1 _; omega
  | succ f ih =>
      intro f2 b h1 h2
      match f2, h2 with
      | f2 + 1, h2 =>
        simp only [walIterateFuel]
        cases hn : WALIterator.next b with
        | none => rfl
        | some p =>
            obtain ⟨e, rest⟩ := p
            have hlt := next_rest_length hn
            dsimp only
            rw [ih f2 rest (by omega) (by omega)]

theorem walIterate_cons {b : List Nat} {e : WALEntry} {rest : List Nat}
    (h : WALIterator.next b = some (e, rest)) :
    walIterate b = e :: walIterate rest := by
  have hlen := next_rest_length h
  unfold walIterate
  have hstep : walIterateFuel (b.length + 1) b = e :: walIterateFuel b.length rest := by
    simp only [walIterateFuel, h]
  rw [hstep, walIterateFuel_congr b.length (rest.length + 1) rest (by omega) (by omega)]

theorem walIterate_nil {b : List Nat} (h : WALIterator.next b = none) :
    walIterate b = [] := by
  simp [walIterate, walIterateFuel, h]

theorem readExact_one_cons (b : Nat) (rest : List Nat) :
    readExact 1 (b :: rest) = some ([b], rest) := by
  simp [readExact]

theorem fromLe_leBytes_of_lt {w n : Nat} (h : n < 256 ^ w) :
    fromLe (leBytes w n) = n := by
  rw [fromLe_leBytes, Nat.mod_eq_of_lt h]

/-- Well-formedness of a record as the WAL write path produces it: the
tombstone flag agrees with value presence, and the key/value lengths and the
timestamp fit the machine widths (`usize`, `u128`) the encoding serializes. -/
def wfEntry (e : WALEntry) : Bool :=
  decide (e.key.length < 2 ^ 64) && decide (e.timestamp < 2 ^ 128) &&
    match e.value with
    | none => e.deleted
    | some v => !e.deleted && decide (v.length < 2 ^ 64)

/-- The bytes appended to the WAL for one entry: `WAL::delete` for a tombstone,
`WAL::set` otherwise (as the replay loop of `load_from_dir` re-appends them). -/
def entryBytes (e : WALEntry) : List Nat :=
  if e.deleted then WAL.delete [] e.key e.timestamp
  else WAL.set [] e.key (e.value.getD []) e.timestamp

theorem next_entryBytes (e : WALEntry) (rest : List Nat) (h : wfEntry e = true) :
    WALIterator.next (entryBytes e ++ rest) = some (e, rest) := by
  obtain ⟨k, v, t, d⟩ := e
  cases v with
  | none =>
      simp only [wfEntry, Bool.and_eq_true, decide_eq_true_eq] at h
      obtain ⟨⟨hk, ht⟩, hd⟩ := h
      subst hd
      have hk8 : fromLe (leBytes 8 k.length) = k.length :=
        fromLe_leBytes_of_lt (lt_of_lt_of_eq hk (by norm_num))
      have ht16 : fromLe (leBytes 16 t) = t :=
        fromLe_leBytes_of_lt (lt_of_lt_of_eq ht (by norm_num))
      simp [entryBytes, WAL.delete, writeAll, boolByte, WALIterator.next,
        List.append_assoc, readExact_append, readExact_one_cons, hk8, ht16]
  | some value =>
      simp only [wfEntry, Bool.and_eq_true, decide_eq_true_eq, Bool.not_eq_true'] at h
      obtain ⟨⟨hk, ht⟩, hd, hv⟩ := h
      subst hd
      have hk8 : fromLe (leBytes 8 k.length) = k.length :=
        fromLe_leBytes_of_lt (lt_of_lt_of_eq hk (by norm_num))
      have hv8 : fromLe (leBytes 8 value.length) = value.length :=
        fromLe_leBytes_of_lt (lt_of_lt_of_eq hv (by norm_num))
      have ht16 : fromLe (leBytes 16 t) = t :=
        fromLe_leBytes_of_lt (lt_of_lt_of_eq ht (by norm_num))
      simp [entryBytes, WAL.set, writeAll, boolByte, WALIterator.next,
        List.append_assoc, readExact_append, readExact_one_cons, hk8, hv8, ht16]

/-- C1: serializing any record with `WAL::set` or `WAL::delete` and decoding
the resulting bytes with the WAL iterator reproduces the identical key,
value/absence, timestamp and tombstone flag — for every key and value byte
sequence (empty ones included) whose length fits `usize` and every 128-bit
timestamp. -/
theorem wal_record_roundtrip (key value : List Nat) (ts : Nat)
    (hk : key.length < 2 ^ 64) (hv : value.length < 2 ^ 64) (ht : ts < 2 ^ 128) :
    walIterate (WAL.set [] key value ts) = [⟨key, some value, ts, false⟩]
    ∧ walIterate (WAL.delete [] key ts) = [⟨key, none, ts, true⟩] := by
  have hnil : WALIterator.next [] = none := by decide
  have hk' := hk
  have hv' := hv
  have ht' := ht
  norm_num at hk' hv' ht'
  constructor
  · have hwf : wfEntry ⟨key, some value, ts, false⟩ = true := by
      simp [wfEntry, hk', hv', ht']
    have hset : WALIterator.next (WAL.set [] key value ts)
        = some (⟨key, some value, ts, false⟩, []) := by
      simpa [entryBytes] using next_entryBytes ⟨key, some value, ts, false⟩ [] hwf
    rw [walIterate_cons hset, walIterate_nil hnil]
  · have hwf : wfEntry ⟨key, none, ts, true⟩ = true := by
      simp [wfEntry, hk', ht']
    have hdel : WALIterator.next (WAL.delete [] key ts)
        = some (⟨key, none, ts, true⟩, []) := by
      simpa [entryBytes] using next_entryBytes ⟨key, none, ts, true⟩ [] hwf
    rw [walIterate_cons hdel, walIterate_nil hnil]

/-- Witness for C1 at concrete inputs, including the empty key and value. -/
theorem wal_record_roundtrip_witness :
    (([] : List Nat).length < 2 ^ 64 ∧ (5 : Nat) < 2 ^ 128)
    ∧ walIterate (WAL.set [] [] [] 5) = [⟨[], some [], 5, false⟩]
    ∧ walIterate (WAL.delete [] [] 5) = [⟨[], none, 5, true⟩] :=
  ⟨⟨by decide, by decide⟩,
    (wal_record_roundtrip [] [] 5 (by decide) (by decide) (by decide)).1,
    (wal_record_roundtrip [] [] 5 (by decide) (by decide) (by decide)).2⟩

/-- The record layout exactly as §4.1 of the spec words it for a set record:
`key_len:8B LE | tombstone:1B | value_len:8B LE | key | value | timestamp:16B LE`. -/
def specSetLayout (key value : List Nat) (ts : Nat) : List Nat :=
  leBytes 8 key.length ++ [0] ++ leBytes 8 value.length ++ key ++ value ++ leBytes 16 ts

/-- The tombstone record layout as the spec words it: no value length field
and no value bytes. -/
def specDeleteLayout (key : List Nat) (ts : Nat) : List Nat :=
  leBytes 8 key.length ++ [1] ++ key ++ leBytes 16 ts

/-- C5: the bytes `WAL::set` and `WAL::delete` append for one record are
exactly, bit for bit, the spec's §4.1 layout: key_len as 8 LE bytes, the
tombstone flag byte, then (for non-tombstones only) value_len as 8 LE bytes,
the key bytes, (for non-tombstones only) the value bytes, and the timestamp as
16 LE bytes. -/
theorem wal_record_layout (buf key value : List Nat) (ts : Nat) :
    WAL.set buf key value ts = buf ++ specSetLayout key value ts
    ∧ WAL.delete buf key ts = buf ++ specDeleteLayout key ts := by
  constructor <;>
    simp [WAL.set, WAL.delete, writeAll, boolByte, specSetLayout, specDeleteLayout,
      List.append_assoc]

/-- C7: a WAL byte stream made of well-formed records followed by a malformed
or truncated tail replays as exactly the well-formed prefix, in order, and then
stops by yielding nothing further (no error is signalled — the iterator just
ends). -/
theorem wal_iterate_stops_at_bad_tail (es : List WALEntry) (tail : List Nat)
    (hwf : es.all wfEntry = true) (htail : WALIterator.next tail = none) :
    walIterate (es.flatMap entryBytes ++ tail) = es := by
  induction es with
  | nil => simpa using walIterate_nil htail
  | cons e es ih =>
      simp only [List.all_cons, Bool.and_eq_true] at hwf
      rw [List.flatMap_cons, List.append_assoc, walIterate_cons (next_entryBytes e _ hwf.1),
        ih hwf.2]

/-- Witness for C7: one set record and one tombstone followed by a 2-byte
truncated tail replay to exactly those two records. -/
theorem wal_iterate_stops_at_bad_tail_witness :
    ([WALEntry.mk [1] (some [2, 3]) 7 false, WALEntry.mk [1] none 9 true].all wfEntry = true)
    ∧ WALIterator.next [255, 255] = none
    ∧ walIterate
        ([WALEntry.mk [1] (some [2, 3]) 7 false, WALEntry.mk [1] none 9 true].flatMap entryBytes
          ++ [255, 255])
        = [WALEntry.mk [1] (some [2, 3]) 7 false, WALEntry.mk [1] none 9 true] :=
  ⟨by decide, by decide,
    wal_iterate_stops_at_bad_tail _ [255, 255] (by decide) (by decide)⟩

/-- Byte-lexicographic strict order on byte sequences: the derived `Ord` of
`Vec<u8>` (element-wise, with a strict prefix sorting first), which
`binary_search_by_key` on `&[u8]` keys compares with. -/
def bytesLt : List Nat → List Nat → Bool
  | [], [] => false
  | [], _ :: _ => true
  | _ :: _, [] => false
  | a :: as, b :: bs => decide (a < b) || (a == b && bytesLt as bs)

theorem bytesLt_irrefl : ∀ l : List Nat, bytesLt l l = false
  | [] => rfl
  | a :: as => by simp [bytesLt, bytesLt_irrefl as]

theorem bytesLt_trans :
    ∀ {a b c : List Nat}, bytesLt a b = true → bytesLt b c = true → bytesLt a c = true
  | [], [], _, h1, _ => absurd h1 (by simp [bytesLt])
  | _ :: _, [], _, h1, _ => absurd h1 (by simp [bytesLt])
  | [], _ :: _, [], _, h2 => absurd h2 (by simp [bytesLt])
  | _ :: _, _ :: _, [], _, h2 => absurd h2 (by simp [bytesLt])
  | [], _ :: _, _ :: _, _, _ => rfl
  | a :: as, b :: bs, c :: cs, h1, h2 => by
      simp only [bytesLt, Bool.or_eq_true, Bool.and_eq_true, decide_eq_true_eq,
        beq_iff_eq] at h1 h2 ⊢
      rcases h1 with h1 | ⟨rfl, h1⟩
      · rcases h2 with h2 | ⟨rfl, h2⟩
        · exact Or.inl (Nat.lt_trans h1 h2)
        · exact Or.inl h1
      · rcases h2 with h2 | ⟨rfl, h2⟩
        · exact Or.inl h2
        · exact Or.inr ⟨rfl, bytesLt_trans h1 h2⟩

theorem bytesLt_total :
    ∀ {a b : List Nat}, bytesLt a b = false → a ≠ b → bytesLt b a = true
  | [], [], _, hne => absurd rfl hne
  | [], _ :: _, h, _ => absurd h (by simp [bytesLt])
  | _ :: _, [], _, _ => rfl
  | a :: as, b :: bs, h, hne => by
      by_cases hab : a = b
      · subst hab
        have h' : bytesLt as bs = false := by simpa [bytesLt] using h
        have hne' : as ≠ bs := fun hh => hne (by rw [hh])
        simp [bytesLt, bytesLt_total h' hne']
      · have hlt : ¬ a < b := by
          intro hlt
          simp [bytesLt, hlt] at h
        have hba : b < a := Nat.lt_of_le_of_ne (Nat.le_of_not_lt hlt) fun hh => hab hh.symm
        simp [bytesLt, hba]

theorem bytesLt_asymm {a b : List Nat} (h : bytesLt a b = true) : bytesLt b a = false := by
  cases hba : bytesLt b a with
  | false => rfl
  | true =>
      have hcontra := bytesLt_trans h hba
      rw [bytesLt_irrefl] at hcontra
      exact Bool.noConfusion hcontra

/-- `MemTableEntry` (src/memtable.rs:16-21). -/
structure MemTableEntry where
  key : List Nat
  value : Option (List Nat)
  timestamp : Nat
  deleted : Bool
deriving Repr, DecidableEq

/-- `MEM_TABLE_SIZE` (src/memtable.rs:2). -/
def MEM_TABLE_SIZE : Nat := 4096

/-- `MemTable` (src/memtable.rs:10-14). -/
structure MemTable where
  entries : List MemTableEntry
  size : Nat
  cap : Nat
deriving Repr, DecidableEq

/-- Strict ascending key order between MemTable entries. -/
def entLt (a b : MemTableEntry) : Prop := bytesLt a.key b.key = true

namespace MemTable

/-- `MemTable::new` (src/memtable.rs:25-31). -/
def new : MemTable := ⟨[], 0, MEM_TABLE_SIZE⟩

/-- `MemTable::get_index` (src/memtable.rs:50-53): `binary_search_by_key` over
the entries, modelled through its contract by a linear traversal — on the
sorted duplicate-free entry lists every reachable MemTable maintains (theorem
`memtable_entries_sorted_nodup`), binary search returns `Ok` at the unique
matching index and otherwise `Err` at the unique order-preserving insertion
point, which is exactly what this traversal computes. -/
def get_index_entries (entries : List MemTableEntry) (key : List Nat) : Except Nat Nat :=
  match entries with
  | [] => .error 0
  | e :: rest =>
    if bytesLt e.key key then
      match get_index_entries rest key with
      | .ok i => .ok (i + 1)
      | .error i => .error (i + 1)
    else if e.key == key then .ok 0
    else .error 0

def get_index (t : MemTable) (key : List Nat) : Except Nat Nat :=
  get_index_entries t.entries key

/-- `MemTable::set` (src/memtable.rs:56-80).  On a hit the entry is replaced
wholesale and the size is adjusted only when the previous entry held a value
(the `if let Some(v)` guard skips tombstones); `usize` subtraction is the
truncated `Nat` subtraction (the source would panic where it underflows).  On
a miss the entry is inserted at the reported index. -/
def set (t : MemTable) (key value : List Nat) (timestamp : Nat) : MemTable :=
  let entry : MemTableEntry := ⟨key, some value, timestamp, false⟩
  match t.get_index key with
  | .ok idx =>
      let size :=
        match t.entries[idx]? with
        | some old =>
            match old.value with
            | some v =>
                if value.length < v.length then t.size - (v.length - value.length)
                else t.size + (value.length - v.length)
            | none => t.size
        | none => t.size
      ⟨t.entries.set idx entry, size, t.cap⟩
  | .error idx =>
      ⟨t.entries.insertIdx idx entry, t.size + key.length + value.length + 16 + 1, t.cap⟩

/-- `MemTable::delete` (src/memtable.rs:83-103): on a hit the entry is
replaced by the tombstone and the old value's length (when a value was held)
is subtracted; on a miss a tombstone entry is inserted. -/
def delete (t : MemTable) (key : List Nat) (timestamp : Nat) : MemTable :=
  let entry : MemTableEntry := ⟨key, none, timestamp, true⟩
  match t.get_index key with
  | .ok idx =>
      let size :=
        match t.entries[idx]? with
        | some old =>
            match old.value with
            | some v => t.size - v.length
            | none => t.size
        | none => t.size
      ⟨t.entries.set idx entry, size, t.cap⟩
  | .error idx =>
      ⟨t.entries.insertIdx idx entry, t.size + key.length + 16 + 1, t.cap⟩

/-- `MemTable::get` (src/memtable.rs:106-111). -/
def get (t : MemTable) (key : List Nat) : Option MemTableEntry :=
  match t.get_index key with
  | .ok idx => t.entries[idx]?
  | .error _ => none

end MemTable

/-- One MemTable mutation call. -/
inductive Op where
  | setOp (key value : List Nat) (timestamp : Nat)
  | delOp (key : List Nat) (timestamp : Nat)
deriving Repr, DecidableEq

def applyOp (t : MemTable) : Op → MemTable
  | .setOp k v ts => t.set k v ts
  | .delOp k ts => t.delete k ts

/-- The MemTable after a finite sequence of `set`/`delete` calls. -/
def applyOps (t : MemTable) (ops : List Op) : MemTable := ops.foldl applyOp t

theorem mem_insertIdx_sub {α : Type} {x ent : α} :
    ∀ {i : Nat} {l : List α}, x ∈ l.insertIdx i ent → x = ent ∨ x ∈ l := by
  intro i
  induction i with
  | zero =>
      intro l h
      rw [List.insertIdx_zero] at h
      exact List.mem_cons.1 h
  | succ i ih =>
      intro l h
      cases l with
      | nil =>
          rw [List.insertIdx_succ_nil] at h
          exact Or.inr h
      | cons b bs =>
          rw [List.insertIdx_succ_cons] at h
          rcases List.mem_cons.1 h with rfl | h
          · exact Or.inr (List.mem_cons_self x bs)
          · rcases ih h with h | h
            · exact Or.inl h
            · exact Or.inr (List.mem_cons_of_mem b h)

theorem set_getElem_self {α : Type} :
    ∀ (l : List α) (i : Nat) (a : α), l[i]? = some a → l.set i a = l
  | [], _, _, h => by simp at h
  | x :: xs, 0, a, h => by
      simp only [List.getElem?_cons_zero, Option.some.injEq] at h
      simp [List.set, h]
  | x :: xs, i + 1, a, h => by
      simp only [List.getElem?_cons_succ] at h
      simp [List.set, set_getElem_self xs i a h]

theorem get_index_entries_ok :
    ∀ {l : List MemTableEntry} {key : List Nat} {idx : Nat},
      MemTable.get_index_entries l key = .ok idx →
      ∃ old, l[idx]? = some old ∧ old.key = key := by
  intro l
  induction l with
  | nil => intro key idx h; simp [MemTable.get_index_entries] at h
  | cons e rest ih =>
      intro key idx h
      unfold MemTable.get_index_entries at h
      by_cases hlt : bytesLt e.key key = true
      · rw [if_pos hlt] at h
        cases hrec : MemTable.get_index_entries rest key with
        | ok i =>
            rw [hrec] at h
            simp only [Except.ok.injEq] at h
            subst h
            obtain ⟨old, hold, hkey⟩ := ih hrec
            exact ⟨old, by simpa using hold, hkey⟩
        | error i => rw [hrec] at h; exact absurd h (by simp)
      · rw [if_neg hlt] at h
        by_cases heq : (e.key == key) = true
        · rw [if_pos heq] at h
          simp only [Except.ok.injEq] at h
          subst h
          exact ⟨e, by simp, beq_iff_eq.mp heq⟩
        · rw [if_neg heq] at h; exact absurd h (by simp)

theorem get_index_entries_error_insert (ent : MemTableEntry) :
    ∀ {l : List MemTableEntry} {idx : Nat},
      l.Pairwise entLt → MemTable.get_index_entries l ent.key = .error idx →
      (l.insertIdx idx ent).Pairwise entLt := by
  intro l
  induction l with
  | nil =>
      intro idx _ h
      simp only [MemTable.get_index_entries, Except.error.injEq] at h
      subst h
      simp [List.insertIdx_zero]
  | cons e rest ih =>
      intro idx hs h
      rw [List.pairwise_cons] at hs
      obtain ⟨he, hrest⟩ := hs
      unfold MemTable.get_index_entries at h
      by_cases hlt : bytesLt e.key ent.key = true
      · rw [if_pos hlt] at h
        cases hrec : MemTable.get_index_entries rest ent.key with
        | ok i => rw [hrec] at h; exact absurd h (by simp)
        | error i =>
            rw [hrec] at h
            simp only [Except.error.injEq] at h
            subst h
            rw [List.insertIdx_succ_cons, List.pairwise_cons]
            refine ⟨?_, ih hrest hrec⟩
            intro x hx
            rcases mem_insertIdx_sub hx with rfl | hx'
            · exact hlt
            · exact he x hx'
      · rw [if_neg hlt] at h
        by_cases heq : (e.key == ent.key) = true
        · rw [if_pos heq] at h; exact absurd h (by simp)
        · rw [if_neg heq] at h
          simp only [Except.error.injEq] at h
          subst h
          rw [List.insertIdx_zero, List.pairwise_cons]
          have hne : e.key ≠ ent.key := by simpa using heq
          have hlt' : bytesLt e.key ent.key = false := by simpa using hlt
          have hent : bytesLt ent.key e.key = true := bytesLt_total hlt' hne
          refine ⟨?_, List.pairwise_cons.2 ⟨he, hrest⟩⟩
          intro x hx
          rcases List.mem_cons.1 hx with rfl | hx'
          · exact hent
          · exact bytesLt_trans hent (he x hx')

theorem pairwise_set_same_key {l : List MemTableEntry} {idx : Nat} {old ent : MemTableEntry}
    (hget : l[idx]? = some old) (hkey : ent.key = old.key)
    (hs : l.Pairwise entLt) : (l.set idx ent).Pairwise entLt := by
  have hmapped : (l.set idx ent).map (fun e => e.key) = l.map (fun e => e.key) := by
    rw [List.map_set, hkey]
    apply set_getElem_self
    rw [List.getElem?_map, hget]
    rfl
  have hs' : List.Pairwise (fun x y => bytesLt x y = true) (l.map fun e => e.key) :=
    (@List.pairwise_map _ _ (fun e : MemTableEntry => e.key)
      (fun x y => bytesLt x y = true) l).2 (by exact hs)
  rw [← hmapped] at hs'
  exact (@List.pairwise_map _ _ (fun e : MemTableEntry => e.key)
    (fun x y => bytesLt x y = true) (l.set idx ent)).1 hs'

theorem set_pairwise {t : MemTable} (hs : t.entries.Pairwise entLt)
    (key value : List Nat) (ts : Nat) :
    ((t.set key value ts).entries).Pairwise entLt := by
  cases hidx : t.get_index key with
  | ok idx =>
      obtain ⟨old, hold, hkey⟩ := get_index_entries_ok hidx
      simp only [MemTable.set, hidx]
      exact pairwise_set_same_key hold (by simp [hkey]) hs
  | error idx =>
      simp only [MemTable.set, hidx]
      exact get_index_entries_error_insert ⟨key, some value, ts, false⟩ hs hidx

theorem delete_pairwise {t : MemTable} (hs : t.entries.Pairwise entLt)
    (key : List Nat) (ts : Nat) :
    ((t.delete key ts).entries).Pairwise entLt := by
  cases hidx : t.get_index key with
  | ok idx =>
      obtain ⟨old, hold, hkey⟩ := get_index_entries_ok hidx
      simp only [MemTable.delete, hidx]
      exact pairwise_set_same_key hold (by simp [hkey]) hs
  | error idx =>
      simp only [MemTable.delete, hidx]
      exact get_index_entries_error_insert ⟨key, none, ts, true⟩ hs hidx

theorem applyOps_pairwise :
    ∀ (ops : List Op) (t : MemTable), t.entries.Pairwise entLt →
      ((applyOps t ops).entries).Pairwise entLt
  | [], _, hs => hs
  | op :: ops, t, hs => by
      rw [applyOps, List.foldl_cons]
      refine applyOps_pairwise ops (applyOp t op) ?_
      cases op with
      | setOp k v ts => exact set_pairwise hs k v ts
      | delOp k ts => exact delete_pairwise hs k ts

/-- C6: after any finite sequence of `set`/`delete` calls on a MemTable
created empty, `entries()` is strictly ascending by key in byte-lexicographic
order, with no duplicate keys. -/
theorem memtable_entries_sorted_nodup (ops : List Op) :
    ((applyOps MemTable.new ops).entries).Pairwise
      (fun a b => bytesLt a.key b.key = true ∧ a.key ≠ b.key) := by
  have h := applyOps_pairwise ops MemTable.new (by simp [MemTable.new])
  refine h.imp ?_
  intro a b hab
  have hab' : bytesLt a.key b.key = true := hab
  refine ⟨hab', fun hk => ?_⟩
  rw [hk, bytesLt_irrefl] at hab'
  exact Bool.noConfusion hab'

/-- C3: `set(k, v, t1)` then `delete(k, t2)` makes `get(k)` report the key as
deleted, for every pair of timestamps — both `t2 > t1` and `t2 < t1` — because
MemTable mutations apply in call order (in-place replace, last call wins), not
in timestamp order. -/
theorem memtable_tombstone_shadowing (k v : List Nat) (t1 t2 : Nat) :
    ((MemTable.new.set k v t1).delete k t2).get k = some ⟨k, none, t2, true⟩ := by
  have h1 : (MemTable.new.set k v t1).entries = [⟨k, some v, t1, false⟩] := by
    simp [MemTable.new, MemTable.set, MemTable.get_index, MemTable.get_index_entries,
      List.insertIdx_zero]
  have hidx : (MemTable.new.set k v t1).get_index k = .ok 0 := by
    show MemTable.get_index_entries (MemTable.new.set k v t1).entries k = .ok 0
    rw [h1]
    simp [MemTable.get_index_entries, bytesLt_irrefl]
  have h2 : ((MemTable.new.set k v t1).delete k t2).entries = [⟨k, none, t2, true⟩] := by
    simp only [MemTable.delete, hidx]
    rw [h1]
    rfl
  have hidx2 : ((MemTable.new.set k v t1).delete k t2).get_index k = .ok 0 := by
    show MemTable.get_index_entries ((MemTable.new.set k v t1).delete k t2).entries k = .ok 0
    rw [h2]
    simp [MemTable.get_index_entries, bytesLt_irrefl]
  simp only [MemTable.get, hidx2, h2]
  rfl

/-- C4 (amended): `set` on a miss inserts the entry at the reported insertion
index and grows the size by `key_len + value_len + 16 + 1`; on a hit the entry
is replaced in place and, when the previous entry held a value `v`, the size is
adjusted by the value-length delta (stated additively: `size' + old_len =
size + new_len`, guarded against the `usize` underflow C9 exhibits); when the
previous entry was a tombstone, the size is left unchanged — the new value's
length is not added. -/
theorem memtable_set_semantics (t : MemTable) (key value : List Nat) (ts : Nat) :
    (∀ idx, t.get_index key = .error idx →
        (t.set key value ts).entries = t.entries.insertIdx idx ⟨key, some value, ts, false⟩
        ∧ (t.set key value ts).size = t.size + key.length + value.length + 16 + 1)
    ∧ (∀ idx old, t.get_index key = .ok idx → t.entries[idx]? = some old →
        (t.set key value ts).entries = t.entries.set idx ⟨key, some value, ts, false⟩
        ∧ (old.value = none → (t.set key value ts).size = t.size)
        ∧ (∀ v, old.value = some v → v.length ≤ t.size + value.length →
            (t.set key value ts).size + v.length = t.size + value.length)) := by
  constructor
  · intro idx hidx
    constructor
    · simp only [MemTable.set, hidx]
    · simp only [MemTable.set, hidx]
  · intro idx old hidx hold
    refine ⟨?_, ?_, ?_⟩
    · simp only [MemTable.set, hidx]
    · intro hnone
      simp only [MemTable.set, hidx, hold, hnone]
    · intro v hv hle
      simp only [MemTable.set, hidx, hold, hv]
      rcases Nat.lt_or_ge value.length v.length with hc | hc
      · rw [if_pos hc]
        omega
      · rw [if_neg (Nat.not_lt.2 hc)]
        omega

/-- Witness for C4 at a concrete tombstone hit: the entry is replaced in place
and the size stays unchanged. -/
theorem memtable_set_semantics_witness :
    (MemTable.new.delete [97] 0).get_index [97] = .ok 0
    ∧ (MemTable.new.delete [97] 0).entries[0]? = some ⟨[97], none, 0, true⟩
    ∧ ((MemTable.new.delete [97] 0).set [97] [1, 2] 1).entries
        = (MemTable.new.delete [97] 0).entries.set 0 ⟨[97], some [1, 2], 1, false⟩
    ∧ ((MemTable.new.delete [97] 0).set [97] [1, 2] 1).size
        = (MemTable.new.delete [97] 0).size :=
  ⟨by rfl, by rfl,
    ((memtable_set_semantics (MemTable.new.delete [97] 0) [97] [1, 2] 1).2 0
      ⟨[97], none, 0, true⟩ (by rfl) (by rfl)).1,
    ((memtable_set_semantics (MemTable.new.delete [97] 0) [97] [1, 2] 1).2 0
      ⟨[97], none, 0, true⟩ (by rfl) (by rfl)).2.1 (by rfl)⟩

/-- C4 counterexample: overwriting a tombstone with `set` leaves the tracked
size unchanged (18), not adjusted by the full new-value length to 20 as the
claim's reading of "delta between the new and old value lengths" (old length
0) would require. -/
theorem memtable_set_tombstone_size_counterexample :
    (MemTable.new.delete [97] 0).size = 18
    ∧ ((MemTable.new.delete [97] 0).set [97] [1, 2] 1).size = 18
    ∧ (18 : Nat) ≠ 18 + 2 := by
  refine ⟨by decide, by decide, by decide⟩

/-- C9 is false of the code (code bug): after `delete ""` (size 17) and then
`set ""` with an 18-byte value — which, hitting a tombstone, leaves the size
at 17 — the entry holds an 18-byte value, so the `self.size -= value.len()`
of a subsequent `delete ""` subtracts 18 from 17 and underflows `usize`. -/
theorem memtable_size_underflow :
    ((MemTable.new.delete [] 0).set [] (List.replicate 18 7) 1).size = 17
    ∧ (((MemTable.new.delete [] 0).set [] (List.replicate 18 7) 1).get []).map
        (fun e => (e.value.getD []).length) = some 18
    ∧ 17 < 18 := by
  refine ⟨by decide, by decide, by decide⟩

/-- The flag/value agreement each entry carries: `deleted` holds exactly when
the value is absent. -/
def entFlagOk (e : MemTableEntry) : Bool := e.deleted == e.value.isNone

theorem next_flag {b : List Nat} {e : WALEntry} {r : List Nat}
    (h : WALIterator.next b = some (e, r)) : e.deleted = e.value.isNone := by
  unfold WALIterator.next at h
  simp only [Option.bind_eq_some] at h
  obtain ⟨⟨l1, r1⟩, h1, h⟩ := h
  obtain ⟨⟨l2, r2⟩, h2, h⟩ := h
  dsimp only at h
  split at h
  · simp only [Option.bind_eq_some] at h
    obtain ⟨⟨l3, r3⟩, h3, h⟩ := h
    obtain ⟨⟨l4, r4⟩, h4, h⟩ := h
    simp only [Option.some.injEq, Prod.mk.injEq] at h
    obtain ⟨he, -⟩ := h
    subst he
    rfl
  · simp only [Option.bind_eq_some] at h
    obtain ⟨⟨l3, r3⟩, h3, h⟩ := h
    obtain ⟨⟨l4, r4⟩, h4, h⟩ := h
    obtain ⟨⟨l5, r5⟩, h5, h⟩ := h
    obtain ⟨⟨l6, r6⟩, h6, h⟩ := h
    simp only [Option.some.injEq, Prod.mk.injEq] at h
    obtain ⟨he, -⟩ := h
    subst he
    rfl

theorem walIterateFuel_flag :
    ∀ (fuel : Nat) (b : List Nat) (e : WALEntry), e ∈ walIterateFuel fuel b →
      e.deleted = e.value.isNone
  | 0, _, _, h => absurd h (by simp [walIterateFuel])
  | fuel + 1, b, e, h => by
      simp only [walIterateFuel] at h
      cases hn : WALIterator.next b with
      | none => rw [hn] at h; exact absurd h (by simp)
      | some p =>
          obtain ⟨e0, rest⟩ := p
          rw [hn] at h
          rcases List.mem_cons.1 h with rfl | h
          · exact next_flag hn
          · exact walIterateFuel_flag fuel rest e h

theorem set_flagOk {t : MemTable} (hall : ∀ e ∈ t.entries, entFlagOk e = true)
    (key value : List Nat) (ts : Nat) :
    ∀ e ∈ (t.set key value ts).entries, entFlagOk e = true := by
  intro e he
  cases hidx : t.get_index key with
  | ok idx =>
      simp only [MemTable.set, hidx] at he
      rcases List.mem_or_eq_of_mem_set he with he | rfl
      · exact hall e he
      · rfl
  | error idx =>
      simp only [MemTable.set, hidx] at he
      rcases mem_insertIdx_sub he with rfl | he
      · rfl
      · exact hall e he

theorem delete_flagOk {t : MemTable} (hall : ∀ e ∈ t.entries, entFlagOk e = true)
    (key : List Nat) (ts : Nat) :
    ∀ e ∈ (t.delete key ts).entries, entFlagOk e = true := by
  intro e he
  cases hidx : t.get_index key with
  | ok idx =>
      simp only [MemTable.delete, hidx] at he
      rcases List.mem_or_eq_of_mem_set he with he | rfl
      · exact hall e he
      · rfl
  | error idx =>
      simp only [MemTable.delete, hidx] at he
      rcases mem_insertIdx_sub he with rfl | he
      · rfl
      · exact hall e he

theorem applyOps_flagOk :
    ∀ (ops : List Op) (t : MemTable), (∀ e ∈ t.entries, entFlagOk e = true) →
      ∀ e ∈ (applyOps t ops).entries, entFlagOk e = true
  | [], _, hall => hall
  | op :: ops, t, hall => by
      rw [applyOps, List.foldl_cons]
      refine applyOps_flagOk ops (applyOp t op) ?_
      cases op with
      | setOp k v ts => exact set_flagOk hall k v ts
      | delOp k ts => exact delete_flagOk hall k ts

/-- C10: after any sequence of `set`/`delete` calls every MemTable entry, and
every `WALEntry` the WAL iterator produces from any byte stream, has its
`deleted` flag true exactly when its value is absent (so the `unwrap` on
non-deleted entries during recovery replay cannot panic). -/
theorem deleted_iff_value_absent :
    (∀ ops : List Op,
        ((applyOps MemTable.new ops).entries).all entFlagOk = true)
    ∧ (∀ bytes : List Nat,
        (walIterate bytes).all (fun e => e.deleted == e.value.isNone) = true) := by
  constructor
  · intro ops
    rw [List.all_eq_true]
    exact applyOps_flagOk ops MemTable.new (by simp [MemTable.new])
  · intro bytes
    rw [List.all_eq_true]
    intro e he
    have := walIterateFuel_flag (bytes.length + 1) bytes e he
    simp [this]

/-- A file of the data directory: its name and contents, both byte sequences. -/
structure DirFile where
  name : List Nat
  data : List Nat
deriving Repr, DecidableEq

/-- The bytes after the last `.` of a name, `none` when no `.` occurs. -/
def afterLastDot : List Nat → Option (List Nat)
  | [] => none
  | b :: rest =>
    match afterLastDot rest with
    | some s => some s
    | none => if b == 46 then some rest else none

/-- `Path::extension()`: the portion of the file name after the final `.`;
`none` when there is no `.`, or when the only `.` is the leading one of a
hidden file. -/
def extOf (name : List Nat) : Option (List Nat) :=
  match name with
  | [] => none
  | b :: rest => if b == 46 then afterLastDot rest else afterLastDot (b :: rest)

/-- `"wal"` as bytes. -/
def walExt : List Nat := [119, 97, 108]

/-- `files_with_ext` (src/lib.rs:20-30): keep the files whose extension is
`ext`.  The source `unwrap`s `path.extension()` and so panics on a file
without one; the model returns `none` for such a directory. -/
def files_with_ext (dir : List DirFile) (ext : List Nat) : Option (List DirFile) :=
  if dir.all (fun f => (extOf f.name).isSome) then
    some (dir.filter (fun f => extOf f.name == some ext))
  else none

/-- One insertion step of a stable sort by byte-wise lexicographic file name
(ties keep the earlier element first). -/
def insertByName (f : DirFile) : List DirFile → List DirFile
  | [] => [f]
  | g :: rest =>
    if bytesLt f.name g.name then f :: g :: rest
    else g :: insertByName f rest

/-- `wal_files.sort()` (src/lib/wal.rs:101): `Vec<PathBuf>::sort()` is a
stable sort, and for files of one directory the `Ord` of `Path` compares the
file-name component byte-wise lexicographically.  Any stable sort computes the
same reordering; the model uses insertion sort. -/
def sortByName (files : List DirFile) : List DirFile :=
  files.foldl (fun acc f => insertByName f acc) []

/-- ASCII decimal digits of `n`, least significant first; the first argument
is fuel (`n` itself always suffices since the value shrinks ten-fold). -/
def natDigitsRev : Nat → Nat → List Nat
  | 0, _ => []
  | _ + 1, 0 => []
  | fuel + 1, n => (48 + n % 10) :: natDigitsRev fuel (n / 10)

/-- `u128::to_string`: the ASCII decimal digits of `n`. -/
def natDecimalBytes (n : Nat) : List Nat :=
  if n == 0 then [48] else (natDigitsRev n n).reverse

/-- The file name `WAL::new` creates: `<timestamp>.wal` (src/lib/wal.rs:52). -/
def walName (ts : Nat) : List Nat := natDecimalBytes ts ++ (46 :: walExt)

/-- Contents of the named file, `[]` when absent (a file opened with
`create(true)` in append mode starts from its existing contents, if any). -/
def lookupData (dir : List DirFile) (name : List Nat) : List Nat :=
  match dir.find? (fun f => f.name == name) with
  | some f => f.data
  | none => []

/-- Writing `data` as the contents of `name`: replace the existing file or
create it at the end of the listing. -/
def upsert (dir : List DirFile) (name data : List Nat) : List DirFile :=
  if dir.any (fun f => f.name == name) then
    dir.map (fun f => if f.name == name then ⟨name, data⟩ else f)
  else dir ++ [⟨name, data⟩]

/-- One iteration of the replay loop of `WAL::load_from_dir`
(src/lib/wal.rs:108-124): apply the entry to the new MemTable and re-append it
into the new WAL's buffer.  A non-deleted entry without a value panics on
`unwrap` in the source, which is the `none` case. -/
def replayEntry (acc : MemTable × List Nat) (e : WALEntry) :
    Option (MemTable × List Nat) :=
  if e.deleted then
    some (acc.1.delete e.key e.timestamp, WAL.delete acc.2 e.key e.timestamp)
  else
    match e.value with
    | some v => some (acc.1.set e.key v e.timestamp, WAL.set acc.2 e.key v e.timestamp)
    | none => none

/-- The inner replay loop (`for entry in wal.into_iter()`). -/
def replayEntries (acc : MemTable × List Nat) :
    List WALEntry → Option (MemTable × List Nat)
  | [] => some acc
  | e :: es =>
    match replayEntry acc e with
    | none => none
    | some acc2 => replayEntries acc2 es

/-- The outer replay loop (`for wal_file in wal_files.iter()`). -/
def replayFiles (acc : MemTable × List Nat) :
    List DirFile → Option (MemTable × List Nat)
  | [] => some acc
  | f :: fs =>
    match replayEntries acc (walIterate f.data) with
    | none => none
    | some acc2 => replayFiles acc2 fs

/-- `WAL::load_from_dir` (src/lib/wal.rs:98-130) on the directory model: list
the `.wal` files, sort them by path, create the new WAL named `<now>.wal`
(append mode: existing contents, if any, are kept and the buffer is written
after them at flush), replay every entry of every listed file into a fresh
MemTable while re-appending it into the new WAL's buffer, flush, then delete
the listed files.  Returns the new WAL file, the MemTable, and the directory
contents afterwards. -/
def load_from_dir (dir : List DirFile) (now : Nat) :
    Option (DirFile × MemTable × List DirFile) :=
  match files_with_ext dir walExt with
  | none => none
  | some walFiles =>
    let sorted := sortByName walFiles
    let newName := walName now
    let base := lookupData dir newName
    match replayFiles (MemTable.new, []) sorted with
    | none => none
    | some (tbl, buf) =>
      let flushed := upsert dir newName (base ++ buf)
      let dirAfter := flushed.filter fun f => !(sorted.any (fun g => g.name == f.name))
      some (⟨newName, base ++ buf⟩, tbl, dirAfter)

/-- The WAL files of a directory in replay order: filtered, then sorted by
file name. -/
def walFilesOf (dir : List DirFile) : List DirFile :=
  sortByName (dir.filter (fun f => extOf f.name == some walExt))

/-- Every entry replayed during recovery, in replay order. -/
def replayedEntries (dir : List DirFile) : List WALEntry :=
  (walFilesOf dir).flatMap (fun f => walIterate f.data)

/-- The MemTable call one replayed entry performs. -/
def entryToOp (e : WALEntry) : Op :=
  if e.deleted then .delOp e.key e.timestamp
  else .setOp e.key (e.value.getD []) e.timestamp

theorem mem_insertByName_sub {x f : DirFile} :
    ∀ {l : List DirFile}, x ∈ insertByName f l → x = f ∨ x ∈ l := by
  intro l
  induction l with
  | nil =>
      intro h
      simpa [insertByName] using h
  | cons g rest ih =>
      intro h
      unfold insertByName at h
      by_cases hlt : bytesLt f.name g.name = true
      · rw [if_pos hlt] at h
        rcases List.mem_cons.1 h with rfl | h
        · exact Or.inl rfl
        · exact Or.inr h
      · rw [if_neg hlt] at h
        rcases List.mem_cons.1 h with rfl | h
        · exact Or.inr (List.mem_cons_self x rest)
        · rcases ih h with h | h
          · exact Or.inl h
          · exact Or.inr (List.mem_cons_of_mem g h)

theorem insertByName_perm (f : DirFile) :
    ∀ l : List DirFile, (insertByName f l).Perm (f :: l) := by
  intro l
  induction l with
  | nil => simp [insertByName]
  | cons g rest ih =>
      unfold insertByName
      by_cases hlt : bytesLt f.name g.name = true
      · rw [if_pos hlt]
      · rw [if_neg hlt]
        exact (ih.cons g).trans (List.Perm.swap f g rest)

theorem sortByName_perm_aux :
    ∀ (l acc : List DirFile),
      (l.foldl (fun a f => insertByName f a) acc).Perm (acc ++ l) := by
  intro l
  induction l with
  | nil => intro acc; simp
  | cons f fs ih =>
      intro acc
      rw [List.foldl_cons]
      refine (ih (insertByName f acc)).trans ?_
      refine (((insertByName_perm f acc).append_right fs).trans ?_)
      exact List.perm_middle.symm

/-- The sorted listing is a permutation of the filtered listing. -/
theorem sortByName_perm (l : List DirFile) : (sortByName l).Perm l := by
  simpa using sortByName_perm_aux l []

theorem insertByName_pairwise {f : DirFile} :
    ∀ {l : List DirFile},
      l.Pairwise (fun a b => bytesLt b.name a.name = false) →
      (insertByName f l).Pairwise (fun a b => bytesLt b.name a.name = false) := by
  intro l
  induction l with
  | nil => intro _; simp [insertByName]
  | cons g rest ih =>
      intro hs
      rw [List.pairwise_cons] at hs
      obtain ⟨hg, hrest⟩ := hs
      unfold insertByName
      by_cases hlt : bytesLt f.name g.name = true
      · rw [if_pos hlt, List.pairwise_cons]
        refine ⟨?_, List.pairwise_cons.2 ⟨hg, hrest⟩⟩
        intro x hx
        rcases List.mem_cons.1 hx with rfl | hx'
        · exact bytesLt_asymm hlt
        · cases hxf : bytesLt x.name f.name with
          | false => rfl
          | true =>
              have hcontra := bytesLt_trans hxf hlt
              rw [hg x hx'] at hcontra
              exact Bool.noConfusion hcontra
      · rw [if_neg hlt, List.pairwise_cons]
        refine ⟨?_, ih hrest⟩
        intro x hx
        rcases mem_insertByName_sub hx with rfl | hx'
        · simpa using hlt
        · exact hg x hx'

theorem sortByName_pairwise_aux :
    ∀ (l acc : List DirFile),
      acc.Pairwise (fun a b => bytesLt b.name a.name = false) →
      (l.foldl (fun a f => insertByName f a) acc).Pairwise
        (fun a b => bytesLt b.name a.name = false) := by
  intro l
  induction l with
  | nil => intro acc h; exact h
  | cons f fs ih =>
      intro acc h
      rw [List.foldl_cons]
      exact ih (insertByName f acc) (insertByName_pairwise h)

/-- The sorted listing is non-decreasing in byte-wise lexicographic name
order. -/
theorem sortByName_pairwise (l : List DirFile) :
    (sortByName l).Pairwise (fun a b => bytesLt b.name a.name = false) :=
  sortByName_pairwise_aux l [] (by simp)

theorem wal_set_buffer (buf key value : List Nat) (ts : Nat) :
    WAL.set buf key value ts = buf ++ WAL.set [] key value ts := by
  simp [WAL.set, writeAll]

theorem wal_delete_buffer (buf key : List Nat) (ts : Nat) :
    WAL.delete buf key ts = buf ++ WAL.delete [] key ts := by
  simp [WAL.delete, writeAll]

set_option maxRecDepth 4000 in
theorem replayEntries_eq :
    ∀ (es : List WALEntry), (∀ e ∈ es, e.deleted = e.value.isNone) →
      ∀ (t : MemTable) (buf : List Nat),
        replayEntries (t, buf) es
          = some (applyOps t (es.map entryToOp), buf ++ es.flatMap entryBytes)
  | [], _, t, buf => by simp [replayEntries, applyOps]
  | e :: es, hflag, t, buf => by
      have hflag_e := hflag e (List.mem_cons_self e es)
      have hflag_rest : ∀ x ∈ es, x.deleted = x.value.isNone :=
        fun x hx => hflag x (List.mem_cons_of_mem e hx)
      cases hd : e.deleted with
      | true =>
          have hval : e.value = none := by
            cases hv : e.value with
            | none => rfl
            | some v => rw [hd, hv] at hflag_e; exact Bool.noConfusion hflag_e
          simp only [replayEntries]
          simp only [replayEntry, hd, if_true]
          rw [replayEntries_eq es hflag_rest, wal_delete_buffer buf e.key e.timestamp]
          simp [applyOps, applyOp, entryToOp, entryBytes, hd, hval, List.append_assoc]
      | false =>
          have hnone : e.value.isNone = false := by rw [← hflag_e, hd]
          obtain ⟨v, hv⟩ : ∃ v, e.value = some v := by
            cases hv : e.value with
            | none => rw [hv] at hnone; exact Bool.noConfusion hnone
            | some v => exact ⟨v, rfl⟩
          simp only [replayEntries]
          simp only [replayEntry, hd, hv, Bool.false_eq_true, if_false]
          rw [replayEntries_eq es hflag_rest, wal_set_buffer buf e.key v e.timestamp]
          simp [applyOps, applyOp, entryToOp, entryBytes, hd, hv, List.append_assoc]

theorem replayFiles_eq :
    ∀ (files : List DirFile) (t : MemTable) (buf : List Nat),
      replayFiles (t, buf) files
        = some (applyOps t ((files.flatMap fun f => walIterate f.data).map entryToOp),
            buf ++ (files.flatMap fun f => walIterate f.data).flatMap entryBytes)
  | [], t, buf => by simp [replayFiles, applyOps]
  | f :: fs, t, buf => by
      have hflag : ∀ e ∈ walIterate f.data, e.deleted = e.value.isNone :=
        fun e he => walIterateFuel_flag (f.data.length + 1) f.data e he
      simp only [replayFiles]
      rw [replayEntries_eq (walIterate f.data) hflag t buf]
      dsimp only
      rw [replayFiles_eq fs]
      simp [applyOps, List.map_append, List.foldl_append, List.flatMap_append,
        List.append_assoc]

theorem files_with_ext_eq {dir : List DirFile}
    (hext : dir.all (fun f => (extOf f.name).isSome) = true) :
    files_with_ext dir walExt
      = some (dir.filter (fun f => extOf f.name == some walExt)) := by
  simp [files_with_ext, hext]

theorem dir_after_eq (dir : List DirFile) (now : Nat) (newData : List Nat)
    (hnodup : (dir.map (fun f => f.name)).Nodup)
    (hfresh : ∀ f ∈ dir, (f.name == walName now) = false) :
    ((dir ++ [(⟨walName now, newData⟩ : DirFile)]).filter
        (fun f => !((walFilesOf dir).any (fun g => g.name == f.name))))
      = dir.filter (fun f => !(extOf f.name == some walExt))
        ++ [(⟨walName now, newData⟩ : DirFile)] := by
  have hperm := sortByName_perm (dir.filter (fun f => extOf f.name == some walExt))
  rw [List.filter_append]
  congr 1
  · apply List.filter_congr
    intro f hf
    have hiff : (walFilesOf dir).any (fun g => g.name == f.name)
        = (extOf f.name == some walExt) := by
      cases hwal : extOf f.name == some walExt with
      | true =>
          have hmem : f ∈ walFilesOf dir :=
            hperm.mem_iff.2 (List.mem_filter.2 ⟨hf, hwal⟩)
          have hbeq : (f.name == f.name) = true := by simp
          exact List.any_eq_true.2 ⟨f, hmem, hbeq⟩
      | false =>
          cases hany : (walFilesOf dir).any (fun g => g.name == f.name) with
          | false => rfl
          | true =>
              exfalso
              obtain ⟨g, hg, hgname⟩ := List.any_eq_true.1 hany
              have hgfilter := List.mem_filter.1 (hperm.mem_iff.1 hg)
              have hname : g.name = f.name := by simpa using hgname
              have hgf : g = f :=
                List.inj_on_of_nodup_map hnodup hgfilter.1 hf hname
              rw [hgf] at hgfilter
              rw [hgfilter.2] at hwal
              exact Bool.noConfusion hwal
    show (!((walFilesOf dir).any fun g => g.name == f.name))
        = (!(extOf f.name == some walExt))
    rw [hiff]
  · cases hany : (walFilesOf dir).any (fun g => g.name == walName now) with
    | true =>
        exfalso
        obtain ⟨g, hg, hgname⟩ := List.any_eq_true.1 hany
        have hgdir := (List.mem_filter.1 (hperm.mem_iff.1 hg)).1
        rw [hfresh g hgdir] at hgname
        exact Bool.noConfusion hgname
    | false =>
        have hpred : (fun f : DirFile => !((walFilesOf dir).any fun g => g.name == f.name))
            (⟨walName now, newData⟩ : DirFile) = true := by
          show (!((walFilesOf dir).any fun g => g.name == walName now)) = true
          rw [hany]
          rfl
        rw [@List.filter_cons_of_pos DirFile
            (fun f => !((walFilesOf dir).any fun g => g.name == f.name))
            ⟨walName now, newData⟩ [] hpred, List.filter_nil]

/-- C2 (amended): `load_from_dir` lists the `.wal` files, sorts them by
byte-wise lexicographic file name — which coincides with ascending filename
timestamp order exactly when the decimal timestamps have equal digit counts,
but not in general — replays every decoded entry of each file in that order
through a fresh MemTable while re-appending it into one freshly created WAL,
then deletes all original WAL files and returns the new WAL (holding the
re-encoded entries in replay order) together with the reconstructed MemTable;
afterwards the directory holds the untouched non-`.wal` files plus exactly
the new WAL file. -/
theorem recover_load_from_dir (dir : List DirFile) (now : Nat)
    (hext : dir.all (fun f => (extOf f.name).isSome) = true)
    (hnodup : (dir.map (fun f => f.name)).Nodup)
    (hfresh : ∀ f ∈ dir, (f.name == walName now) = false) :
    load_from_dir dir now
      = some (⟨walName now, (replayedEntries dir).flatMap entryBytes⟩,
          applyOps MemTable.new ((replayedEntries dir).map entryToOp),
          dir.filter (fun f => !(extOf f.name == some walExt))
            ++ [⟨walName now, (replayedEntries dir).flatMap entryBytes⟩])
      ∧ (walFilesOf dir).Pairwise (fun a b => bytesLt b.name a.name = false)
      ∧ (walFilesOf dir).Perm
          (dir.filter (fun f => extOf f.name == some walExt)) := by
  refine ⟨?_, sortByName_pairwise _, sortByName_perm _⟩
  unfold load_from_dir
  rw [files_with_ext_eq hext]
  dsimp only
  have hbase : lookupData dir (walName now) = [] := by
    unfold lookupData
    have hfind : dir.find? (fun f => f.name == walName now) = none := by
      apply List.find?_eq_none.2
      intro f hf
      simp [hfresh f hf]
    rw [hfind]
  rw [hbase, replayFiles_eq]
  dsimp only
  have hany : dir.any (fun f => f.name == walName now) = false := by
    cases hany : dir.any (fun f => f.name == walName now) with
    | false => rfl
    | true =>
        exfalso
        obtain ⟨g, hg, hgname⟩ := List.any_eq_true.1 hany
        rw [hfresh g hg] at hgname
        exact Bool.noConfusion hgname
  simp only [upsert, hany, Bool.false_eq_true, if_false, List.nil_append]
  rw [show (sortByName (dir.filter fun f => extOf f.name == some walExt))
        = walFilesOf dir from rfl]
  rw [dir_after_eq dir now _ hnodup hfresh]
  simp only [replayedEntries, walFilesOf]

/-- Witness for C2 at the empty directory. -/
theorem recover_load_from_dir_witness :
    (([] : List DirFile).all (fun f => (extOf f.name).isSome) = true)
    ∧ ((([] : List DirFile)).map (fun f => f.name)).Nodup
    ∧ load_from_dir [] 0
        = some (⟨walName 0, (replayedEntries []).flatMap entryBytes⟩,
            applyOps MemTable.new ((replayedEntries []).map entryToOp),
            ([] : List DirFile).filter (fun f => !(extOf f.name == some walExt))
              ++ [⟨walName 0, (replayedEntries []).flatMap entryBytes⟩]) :=
  ⟨rfl, List.nodup_nil,
    (recover_load_from_dir [] 0 rfl List.nodup_nil
      (fun f hf => absurd hf (List.not_mem_nil f))).1⟩

/-- C2 counterexample: with WAL files `999.wal` (one set of key `k` to `a`,
timestamp 999) and `1000.wal` (one set of key `k` to `b`, timestamp 1000),
recovery replays `1000.wal` first — `Vec<PathBuf>::sort()` is lexicographic
and `"1000.wal" < "999.wal"` — so the reconstructed MemTable ends with the
value written by the file with the smaller filename timestamp: entries are
not replayed in timestamp order. -/
theorem recover_not_timestamp_order_counterexample :
    (load_from_dir
        [⟨[57, 57, 57, 46, 119, 97, 108], WAL.set [] [107] [97] 999⟩,
          ⟨[49, 48, 48, 48, 46, 119, 97, 108], WAL.set [] [107] [98] 1000⟩] 2).map
        (fun r => (r.2.1.get [107]).map (fun e => e.value))
      = some (some (some [97]))
    ∧ some (some (some ([97] : List Nat))) ≠ some (some (some ([98] : List Nat))) := by
  refine ⟨by decide, by decide⟩

/-- C8 (amended): with exactly `100.wal` (one set of key `x`, timestamp 100)
and `200.wal` (one delete of key `x`, timestamp 200) on disk, recovery yields
a MemTable in which `get("x")` returns the tombstone entry — the key is
reported as deleted (value absent, tombstone flag set), not absent from the
table — and leaves exactly one WAL file on disk, holding both entries
re-encoded in replay order, while `100.wal` and `200.wal` are gone. -/
theorem recover_two_files_tombstone :
    load_from_dir
        [⟨[49, 48, 48, 46, 119, 97, 108], WAL.set [] [120] [49] 100⟩,
          ⟨[50, 48, 48, 46, 119, 97, 108], WAL.delete [] [120] 200⟩] 3
      = some (⟨[51, 46, 119, 97, 108],
            WAL.set [] [120] [49] 100 ++ WAL.delete [] [120] 200⟩,
          (MemTable.new.set [120] [49] 100).delete [120] 200,
          [⟨[51, 46, 119, 97, 108],
            WAL.set [] [120] [49] 100 ++ WAL.delete [] [120] 200⟩])
    ∧ ((MemTable.new.set [120] [49] 100).delete [120] 200).get [120]
        = some ⟨[120], none, 200, true⟩ := by
  refine ⟨by decide, by decide⟩

/-- C8 counterexample: after recovering `100.wal` (set of `x`) and `200.wal`
(delete of `x`), `MemTable::get("x")` returns the tombstone entry — a present
`Some` result, not "absent" as the claim states. -/
theorem recover_get_not_absent_counterexample :
    (load_from_dir
        [⟨[49, 48, 48, 46, 119, 97, 108], WAL.set [] [120] [49] 100⟩,
          ⟨[50, 48, 48, 46, 119, 97, 108], WAL.delete [] [120] 200⟩] 3).map
        (fun r => r.2.1.get [120])
      = some (some ⟨[120], none, 200, true⟩)
    ∧ (some (some (⟨[120], none, 200, true⟩ : MemTableEntry))
        : Option (Option MemTableEntry)) ≠ some none := by
  refine ⟨by decide, by decide⟩
